import Mathlib

/-!
Verification of the tiled reconstruction + parallel batch-transform pipeline of
the Histology-Collagen-Quantification repository.

The embedding follows the Python source:
  * `stain_vector_separation_large` (src/python/decon.py, src/collagen_quant.py):
    grid partition of an H×W image, sequential path (`threads < 2`) and
    chunked parallel path (`threads >= 2`).
  * `image_read` / `read_tile` (src/python/decon.py): mosaic reconstruction with
    origin = componentwise minimum of tile bounding boxes.
  * the manual mosaic-read loop of `collagen_quant` (src/collagen_quant.py):
    absolute-coordinate tile writes with skip-on-failure.
  * `iterate_over_regions` (src/python/seg.py): the sliding-window iterator and
    the tiled region-statistics pass of `main`.

Images ("canvases") are modelled as total functions `Nat → Nat → α` together
with explicit height/width bounds; machine pixel values are modelled as `Nat`
(the source canvases are unsigned integer arrays).
-/

namespace HistCollagen

/-- A canvas / image buffer: pixel value at (row, col).  Channel structure is
irrelevant to the claims and is absorbed into `α`. -/
abbrev Canvas (α : Type) := Nat → Nat → α

/-- A rectangular batch region `(row_start, row_end, col_start, col_end)` as
built by `stain_vector_separation_large`. -/
structure Region where
  rowStart : Nat
  rowEnd : Nat
  colStart : Nat
  colEnd : Nat
deriving DecidableEq, Repr

/-- Pixel membership in a region (half-open, as in Python slicing). -/
def Region.contains (r : Region) (i j : Nat) : Prop :=
  r.rowStart ≤ i ∧ i < r.rowEnd ∧ r.colStart ≤ j ∧ j < r.colEnd

instance (r : Region) (i j : Nat) : Decidable (r.contains i j) := by
  unfold Region.contains; infer_instance

/-- Interval-arithmetic disjointness of two regions (no shared pixel). -/
def RegionDisjoint (a b : Region) : Prop :=
  b.rowEnd ≤ a.rowStart ∨ a.rowEnd ≤ b.rowStart ∨
  b.colEnd ≤ a.colStart ∨ a.colEnd ≤ b.colStart

instance (a b : Region) : Decidable (RegionDisjoint a b) := by
  unfold RegionDisjoint; infer_instance

theorem RegionDisjoint.symm {a b : Region} (h : RegionDisjoint a b) :
    RegionDisjoint b a := by
  unfold RegionDisjoint at *; tauto

theorem RegionDisjoint.not_both {a b : Region} (h : RegionDisjoint a b)
    (i j : Nat) : ¬ (a.contains i j ∧ b.contains i j) := by
  rintro ⟨⟨ha1, ha2, ha3, ha4⟩, ⟨hb1, hb2, hb3, hb4⟩⟩
  rcases h with h | h | h | h <;> omega

/-- The start offsets `range(0, n, t)` of the Python grid loops: multiples of
`t` strictly below `n` (for `t > 0` there are `⌈n/t⌉` of them). -/
def gridStarts (n t : Nat) : List Nat :=
  List.range' 0 ((n + t - 1) / t) t

/-- The row-major list of batch regions built by both the sequential and the
parallel path of `stain_vector_separation_large`:
`for row_start in range(0, n_rows, tile_size): for col_start in range(0, n_cols, tile_size)`
with ends clipped by `min(start + tile_size, n)`. -/
def regionList (H W t : Nat) : List Region :=
  (gridStarts H t).flatMap fun rs =>
    (gridStarts W t).map fun cs =>
      ⟨rs, min (rs + t) H, cs, min (cs + t) W⟩

/-- Extract the sub-array of a region (local coordinates), as
`image[row_start:row_end, col_start:col_end, :]`. -/
def extract (img : Canvas α) (r : Region) : Canvas α :=
  fun i j => img (r.rowStart + i) (r.colStart + j)

/-- Rectangular sub-array assignment
`out[row_start:row_end, col_start:col_end] = tile` (tile in local coords). -/
def writeRegion (acc : Canvas α) (r : Region) (tile : Canvas α) : Canvas α :=
  fun i j =>
    if r.contains i j then tile (i - r.rowStart) (j - r.colStart) else acc i j

/-- The sequential (`threads < 2`) path of `stain_vector_separation_large`:
iterate the row-major grid, transform each sub-array with `f`, write the result
into a zero-initialised output of the same shape. -/
def seqTransform (img : Canvas α) (f : Canvas α → Canvas α) (H W t : Nat)
    (z : α) : Canvas α :=
  (regionList H W t).foldl
    (fun acc r => writeRegion acc r (f (extract img r)))
    (fun _ _ => z)

/-- `batch_count` of the parallel path:
`len // batch_size` if `len % batch_size == 0` else `len // batch_size + 1`. -/
def batchCount (len bs : Nat) : Nat :=
  if len % bs = 0 then len / bs else len / bs + 1

/-- `batch_size_` of the parallel path:
`len % batch_size` if `len < batch_size * (batch_id + 1)` else `batch_size`. -/
def chunkSizeAt (len bs bid : Nat) : Nat :=
  if len < bs * (bid + 1) then len % bs else bs

/-- The super-batch of regions loaded for one `batch_id`:
`for i in range(batch_size_): tile_idx = batch_id*batch_size + i;
 if tile_idx < len(region_to_process): append regions[tile_idx] else break`. -/
def chunkOf (regions : List Region) (bs bid : Nat) : List Region :=
  (List.range (chunkSizeAt regions.length bs bid)).filterMap fun i =>
    regions.get? (bid * bs + i)

/-- The parallel (`threads >= 2`) path of `stain_vector_separation_large`.
Each super-batch materialises its sub-arrays from the (never mutated) input,
then the pool's completion callbacks write the transformed tiles back in an
arbitrary completion order; `order bid` is the completion order of super-batch
`bid` (a permutation of `chunkOf` in the theorems).  The merge itself is
serialised by the mutex, hence a fold. -/
def parTransform (img : Canvas α) (f : Canvas α → Canvas α) (H W t bs : Nat)
    (order : Nat → List Region) (z : α) : Canvas α :=
  (List.range (batchCount (regionList H W t).length bs)).foldl
    (fun acc bid =>
      (order bid).foldl
        (fun acc2 r => writeRegion acc2 r (f (extract img r))) acc)
    (fun _ _ => z)

/-- `stain_vector_separation_large` itself: dispatch on the worker count. -/
def stain_vector_separation_large (img : Canvas α) (f : Canvas α → Canvas α)
    (H W t bs threads : Nat) (order : Nat → List Region) (z : α) : Canvas α :=
  if threads < 2 then seqTransform img f H W t z
  else parTransform img f H W t bs order z

/-- The parallel path with per-task failure: a failed `transform_fn` task only
triggers `callback_err` (a `print`), so its region is never written; the
function still returns just the output canvas. -/
def parTransformWithFailures (img : Canvas α) (f : Canvas α → Canvas α)
    (H W t bs : Nat) (fails : Region → Bool) (z : α) : Canvas α :=
  (List.range (batchCount (regionList H W t).length bs)).foldl
    (fun acc bid =>
      (chunkOf (regionList H W t) bs bid).foldl
        (fun acc2 r =>
          if fails r then acc2
          else writeRegion acc2 r (f (extract img r))) acc)
    (fun _ _ => z)

/-! ### Fold / permutation machinery -/

theorem foldl_perm_of_mem_comm {α β : Type} {f : β → α → β} {l₁ l₂ : List α}
    (p : l₁.Perm l₂)
    (hc : ∀ a ∈ l₁, ∀ b ∈ l₁, ∀ c, f (f c a) b = f (f c b) a) :
    ∀ b, l₁.foldl f b = l₂.foldl f b := by
  induction p with
  | nil => intro _; rfl
  | cons x p ih =>
      intro b
      simp only [List.foldl_cons]
      exact ih (fun a ha b' hb c =>
        hc a (List.mem_cons_of_mem _ ha) b' (List.mem_cons_of_mem _ hb) c) _
  | swap x y l =>
      intro b
      simp only [List.foldl_cons]
      rw [hc y (by simp) x (by simp) b]
  | trans p1 p2 ih1 ih2 =>
      intro b
      rw [ih1 hc b]
      exact ih2 (fun a ha b' hb c =>
        hc a (p1.symm.subset ha) b' (p1.symm.subset hb) c) b

theorem foldl_nested_eq_foldl_flatMap {α β γ : Type} (g : γ → List α)
    (f : β → α → β) :
    ∀ (l : List γ) (b : β),
      l.foldl (fun acc c => (g c).foldl f acc) b = (l.flatMap g).foldl f b := by
  intro l
  induction l with
  | nil => intro b; rfl
  | cons c l ih =>
      intro b
      simp only [List.foldl_cons, List.flatMap_cons, List.foldl_append]
      exact ih _

theorem flatMap_perm_of_perm {α γ : Type} {l : List γ} {f g : γ → List α}
    (h : ∀ c ∈ l, (f c).Perm (g c)) : (l.flatMap f).Perm (l.flatMap g) := by
  induction l with
  | nil => simp
  | cons c l ih =>
      simp only [List.flatMap_cons]
      exact (h c (by simp)).append (ih fun c' hc => h c' (by simp [hc]))

/-! ### Grid facts -/

theorem lt_ceil_iff {t : Nat} (ht : 0 < t) (i n : Nat) :
    i < (n + t - 1) / t ↔ t * i < n := by
  rw [Nat.lt_iff_add_one_le, Nat.le_div_iff_mul_le ht, Nat.add_mul, Nat.one_mul,
    Nat.mul_comm i t]
  omega

theorem mem_gridStarts {t : Nat} (ht : 0 < t) {n x : Nat} :
    x ∈ gridStarts n t ↔ ∃ i, t * i < n ∧ x = t * i := by
  simp only [gridStarts, List.mem_range', Nat.zero_add]
  constructor
  · rintro ⟨i, hi, rfl⟩
    exact ⟨i, (lt_ceil_iff ht i n).mp hi, rfl⟩
  · rintro ⟨i, hi, rfl⟩
    exact ⟨i, (lt_ceil_iff ht i n).mpr hi, rfl⟩

theorem mem_regionList {H W t : Nat} (ht : 0 < t) {r : Region} :
    r ∈ regionList H W t ↔
      ∃ i j : Nat, t * i < H ∧ t * j < W ∧
        r = ⟨t * i, min (t * i + t) H, t * j, min (t * j + t) W⟩ := by
  simp only [regionList, List.mem_flatMap, List.mem_map]
  constructor
  · rintro ⟨rs, hrs, cs, hcs, rfl⟩
    obtain ⟨i, hi, rfl⟩ := (mem_gridStarts ht).mp hrs
    obtain ⟨j, hj, rfl⟩ := (mem_gridStarts ht).mp hcs
    exact ⟨i, j, hi, hj, rfl⟩
  · rintro ⟨i, j, hi, hj, rfl⟩
    exact ⟨t * i, (mem_gridStarts ht).mpr ⟨i, hi, rfl⟩,
      t * j, (mem_gridStarts ht).mpr ⟨j, hj, rfl⟩, rfl⟩

theorem regionList_pairwise_disjoint {H W t : Nat} (ht : 0 < t) :
    ∀ r1 ∈ regionList H W t, ∀ r2 ∈ regionList H W t,
      r1 ≠ r2 → RegionDisjoint r1 r2 := by
  intro r1 h1 r2 h2 hne
  obtain ⟨i1, j1, hi1, hj1, rfl⟩ := (mem_regionList ht).mp h1
  obtain ⟨i2, j2, hi2, hj2, rfl⟩ := (mem_regionList ht).mp h2
  have hrow : ∀ a b n : Nat, a < b → min (t * a + t) n ≤ t * b := by
    intro a b n hab
    have : t * (a + 1) ≤ t * b := Nat.mul_le_mul_left t hab
    rw [Nat.mul_add, Nat.mul_one] at this
    omega
  by_cases hii : i1 = i2
  · by_cases hjj : j1 = j2
    · exact absurd (by rw [hii, hjj]) hne
    · rcases Nat.lt_or_ge j1 j2 with h | h
      · exact Or.inr (Or.inr (Or.inr (hrow j1 j2 W h)))
      · exact Or.inr (Or.inr (Or.inl (hrow j2 j1 W (by omega))))
  · rcases Nat.lt_or_ge i1 i2 with h | h
    · exact Or.inr (Or.inl (hrow i1 i2 H h))
    · exact Or.inl (hrow i2 i1 H (by omega))

theorem writeRegion_comm {α : Type} {a b : Region} (h : RegionDisjoint a b)
    (ta tb : Canvas α) (c : Canvas α) :
    writeRegion (writeRegion c a ta) b tb
      = writeRegion (writeRegion c b tb) a ta := by
  funext i j
  unfold writeRegion
  by_cases ha : a.contains i j
  · by_cases hb : b.contains i j
    · exact absurd ⟨ha, hb⟩ (h.not_both i j)
    · simp [ha, hb]
  · by_cases hb : b.contains i j <;> simp [ha, hb]

/-! ### Chunking facts -/

theorem filterMap_get_range_eq_drop_take {α : Type} (l : List α) :
    ∀ (m s : Nat),
      (List.range m).filterMap (fun i => l.get? (s + i)) = (l.drop s).take m := by
  intro m
  induction m with
  | zero => intro s; rfl
  | succ m ih =>
      intro s
      rw [List.range_succ, List.filterMap_append, ih s, List.take_succ]
      congr 1
      rw [List.getElem?_drop]
      simp only [List.filterMap_cons, List.filterMap_nil, List.get?_eq_getElem?]
      cases hv : l[s + m]? with
      | none => simp [hv]
      | some v => simp [hv]

theorem chunkOf_eq_drop_take (regions : List Region) (bs bid : Nat) :
    chunkOf regions bs bid
      = (regions.drop (bid * bs)).take (chunkSizeAt regions.length bs bid) := by
  unfold chunkOf
  exact filterMap_get_range_eq_drop_take regions _ (bid * bs)

theorem chunkOf_eq_take_bs {regions : List Region} {bs bid : Nat}
    (hbs : 0 < bs) (hbid : bid < batchCount regions.length bs) :
    chunkOf regions bs bid = (regions.drop (bid * bs)).take bs := by
  rw [chunkOf_eq_drop_take]
  set len := regions.length with hlen
  unfold chunkSizeAt
  split
  · rename_i hlt
    unfold batchCount at hbid
    have hdm := Nat.div_add_mod len bs
    have hmlt := Nat.mod_lt len hbs
    have hmod : len % bs ≠ 0 := by
      intro h0
      rw [if_pos h0] at hbid
      have : bs * (bid + 1) ≤ bs * (len / bs) := Nat.mul_le_mul_left bs hbid
      omega
    rw [if_neg hmod] at hbid
    have hbid' : bid = len / bs := by
      rcases Nat.lt_or_ge bid (len / bs) with h | h
      · exfalso
        have : bs * (bid + 1) ≤ bs * (len / bs) := Nat.mul_le_mul_left bs h
        omega
      · omega
    have hdroplen : (regions.drop (bid * bs)).length = len % bs := by
      rw [List.length_drop, hbid', ← hlen, Nat.mul_comm]
      omega
    rw [List.take_of_length_le (by omega), List.take_of_length_le (by omega)]
  · rfl

theorem length_le_batchCount_mul {len bs : Nat} (hbs : 0 < bs) :
    len ≤ batchCount len bs * bs := by
  unfold batchCount
  have hdm := Nat.div_add_mod len bs
  have hmlt := Nat.mod_lt len hbs
  split
  · rename_i h
    rw [Nat.mul_comm]
    omega
  · rw [Nat.add_mul, Nat.one_mul, Nat.mul_comm]
    omega

theorem flatMap_range_drop_take {α : Type} {bs : Nat} :
    ∀ (k : Nat) (l : List α), l.length ≤ k * bs →
      (List.range k).flatMap (fun bid => (l.drop (bid * bs)).take bs) = l := by
  intro k
  induction k with
  | zero =>
      intro l hl
      simp only [Nat.zero_mul, Nat.le_zero] at hl
      simp [List.eq_nil_of_length_eq_zero hl]
  | succ k ih =>
      intro l hl
      have hsm : (k + 1) * bs = k * bs + bs := Nat.succ_mul k bs
      rw [List.range_succ_eq_map, List.flatMap_cons, List.flatMap_map]
      have hcomp :
          ((List.range k).flatMap fun a =>
              (l.drop (Nat.succ a * bs)).take bs)
            = (List.range k).flatMap fun bid =>
                ((l.drop bs).drop (bid * bs)).take bs := by
        rw [List.flatMap_def, List.flatMap_def]
        congr 1
        apply List.map_congr_left
        intro a _
        rw [List.drop_drop]
        congr 2
        rw [Nat.succ_mul]
        omega
      rw [hcomp, ih (l.drop bs) (by rw [List.length_drop]; omega)]
      simp [List.take_append_drop]

theorem flatMap_chunkOf (regions : List Region) {bs : Nat} (hbs : 0 < bs) :
    (List.range (batchCount regions.length bs)).flatMap
        (fun bid => chunkOf regions bs bid) = regions := by
  have hcongr :
      (List.range (batchCount regions.length bs)).flatMap
          (fun bid => chunkOf regions bs bid)
        = (List.range (batchCount regions.length bs)).flatMap
            (fun bid => (regions.drop (bid * bs)).take bs) := by
    rw [List.flatMap_def, List.flatMap_def]
    congr 1
    apply List.map_congr_left
    intro bid hbid
    exact chunkOf_eq_take_bs hbs (List.mem_range.mp hbid)
  rw [hcongr]
  exact flatMap_range_drop_take _ _ (length_le_batchCount_mul hbs)

/-! ### C1, C2, C7 -/

/-- C1: for every input, transform function and tile_size/batch_size/worker
combination, the parallel path of `stain_vector_separation_large`
(`threads >= 2`, any per-super-batch completion order) returns a canvas
element-wise equal to the sequential baseline (`threads < 2`). -/
theorem parallel_matches_sequential {α : Type} (img : Canvas α)
    (f : Canvas α → Canvas α) (H W t bs threads : Nat)
    (order : Nat → List Region) (z : α)
    (ht : 0 < t) (hbs : 0 < bs) (hthreads : 2 ≤ threads)
    (horder : ∀ bid, (order bid).Perm (chunkOf (regionList H W t) bs bid)) :
    stain_vector_separation_large img f H W t bs threads order z
      = stain_vector_separation_large img f H W t bs 0 order z := by
  unfold stain_vector_separation_large
  rw [if_neg (by omega), if_pos (by omega)]
  unfold parTransform seqTransform
  rw [foldl_nested_eq_foldl_flatMap]
  have hperm :
      ((List.range (batchCount (regionList H W t).length bs)).flatMap
          order).Perm (regionList H W t) := by
    have h1 := flatMap_perm_of_perm
      (l := List.range (batchCount (regionList H W t).length bs))
      (f := order) (g := fun bid => chunkOf (regionList H W t) bs bid)
      (fun bid _ => horder bid)
    rwa [flatMap_chunkOf _ hbs] at h1
  refine foldl_perm_of_mem_comm hperm ?_ _
  intro a ha b hb c
  by_cases hab : a = b
  · subst hab; rfl
  · exact writeRegion_comm
      (regionList_pairwise_disjoint ht a (hperm.subset ha) b (hperm.subset hb)
        hab) _ _ _

theorem parallel_matches_sequential_witness :
    stain_vector_separation_large (fun i j => i + j)
        (fun c => fun i j => c i j + 1) 2 2 1 2 5
        (fun bid => (chunkOf (regionList 2 2 1) 2 bid).reverse) 0
      = stain_vector_separation_large (fun i j => i + j)
          (fun c => fun i j => c i j + 1) 2 2 1 2 0
          (fun bid => (chunkOf (regionList 2 2 1) 2 bid).reverse) 0 :=
  parallel_matches_sequential _ _ 2 2 1 2 5 _ 0 (by decide) (by decide)
    (by decide) (fun bid => List.reverse_perm _)

/-- C2: for every H×W input and tile_size t > 0, the transform engine's
partition is the row-major ⌈H/t⌉×⌈W/t⌉ grid: it has ⌈H/t⌉·⌈W/t⌉ descriptors,
covers every pixel, stays within bounds, and distinct descriptors are
disjoint; a 100×100 array with tile_size 30 yields 16 batches whose last
descriptor is the clipped 10×10 corner. -/
theorem regionList_partition (H W t : Nat) (ht : 0 < t) :
    (regionList H W t).length = ((H + t - 1) / t) * ((W + t - 1) / t)
    ∧ (∀ i j, i < H → j < W → ∃ r ∈ regionList H W t, r.contains i j)
    ∧ (∀ r ∈ regionList H W t, r.rowEnd ≤ H ∧ r.colEnd ≤ W)
    ∧ (∀ r1 ∈ regionList H W t, ∀ r2 ∈ regionList H W t,
        r1 ≠ r2 → RegionDisjoint r1 r2)
    ∧ (regionList 100 100 30).length = 16
    ∧ (regionList 100 100 30).getLast? = some ⟨90, 100, 90, 100⟩ := by
  refine ⟨?_, ?_, ?_, regionList_pairwise_disjoint ht, by decide, by decide⟩
  · rw [regionList, List.length_flatMap]
    have hconst : ((gridStarts H t).map (List.length ∘ fun rs =>
        (gridStarts W t).map fun cs =>
          (⟨rs, min (rs + t) H, cs, min (cs + t) W⟩ : Region)))
        = (gridStarts H t).map fun _ => (W + t - 1) / t := by
      apply List.map_congr_left
      intro rs _
      simp [gridStarts]
    rw [hconst, List.map_const', List.sum_const_nat, gridStarts,
      List.length_range']
  · intro i j hi hj
    have hdmi := Nat.div_add_mod i t
    have hmi := Nat.mod_lt i ht
    have hdmj := Nat.div_add_mod j t
    have hmj := Nat.mod_lt j ht
    refine ⟨⟨t * (i / t), min (t * (i / t) + t) H, t * (j / t),
      min (t * (j / t) + t) W⟩,
      (mem_regionList ht).mpr ⟨i / t, j / t, by omega, by omega, rfl⟩,
      ?_, ?_, ?_, ?_⟩ <;> simp only [Region.contains] <;> omega
  · intro r hr
    obtain ⟨i, j, hi, hj, rfl⟩ := (mem_regionList ht).mp hr
    exact ⟨Nat.min_le_right _ _, Nat.min_le_right _ _⟩

theorem regionList_partition_witness : (regionList 100 100 30).length = 16 :=
  (regionList_partition 100 100 30 (by decide)).2.2.2.2.1

/-- The merge-back loop shared by mosaic assembly (`image_read`'s "Merging"
loop) and the transform engine's callbacks: task results land in the shared
canvas in completion order. -/
def mergeResults {α : Type} (results : List (Region × Canvas α))
    (init : Canvas α) : Canvas α :=
  results.foldl (fun acc pr => writeRegion acc pr.1 pr.2) init

/-- C7: when all task target regions are pairwise disjoint, the final canvas
contents do not depend on the completion/merge order of the tasks. -/
theorem merge_order_independent {α : Type}
    (results₁ results₂ : List (Region × Canvas α)) (init : Canvas α)
    (hperm : results₁.Perm results₂)
    (hdisj : results₁.Pairwise (fun a b => RegionDisjoint a.1 b.1)) :
    mergeResults results₁ init = mergeResults results₂ init := by
  refine foldl_perm_of_mem_comm hperm ?_ init
  intro a ha b hb c
  by_cases hab : a = b
  · subst hab; rfl
  · have hsymm : Symmetric fun x y : Region × Canvas α =>
        RegionDisjoint x.1 y.1 := fun _ _ h => h.symm
    exact writeRegion_comm (hdisj.forall hsymm ha hb hab) _ _ _

theorem merge_order_independent_witness :
    mergeResults [((⟨0, 1, 0, 1⟩ : Region), fun _ _ => (3 : Nat)),
        ((⟨1, 2, 0, 1⟩ : Region), fun _ _ => 4)] (fun _ _ => 0)
      = mergeResults [((⟨1, 2, 0, 1⟩ : Region), fun _ _ => 4),
          ((⟨0, 1, 0, 1⟩ : Region), fun _ _ => 3)] (fun _ _ => 0) :=
  merge_order_independent _ _ _
    (List.Perm.swap ((⟨1, 2, 0, 1⟩ : Region), fun _ _ => 4)
      ((⟨0, 1, 0, 1⟩ : Region), fun _ _ => 3) [])
    (by
      refine List.Pairwise.cons ?_ (List.pairwise_singleton _ _)
      intro p hp
      rw [List.mem_singleton] at hp
      subst hp
      decide)

/-! ### Mosaic reconstruction: decon.py `image_read`/`read_tile` and the
manual-read loop of collagen_quant.py -/

/-- A mosaic tile bounding box as returned by the container reader. -/
structure BBox where
  x : Nat
  y : Nat
  w : Nat
  h : Nat
deriving DecidableEq, Repr

/-- A destination rectangle in canvas coordinates. -/
structure DestRect where
  xStart : Nat
  xEnd : Nat
  yStart : Nat
  yEnd : Nat
deriving DecidableEq, Repr

/-- `np.min` over a non-empty value list (0 for the empty list, where
`np.min` would raise). -/
def listMin : List Nat → Nat
  | [] => 0
  | v :: vs => vs.foldl min v

/-- `np.min(x_)` over the tile bbox x coordinates in `image_read`. -/
def minBBoxX (bboxes : List BBox) : Nat := listMin (bboxes.map BBox.x)

/-- `np.min(y_)` over the tile bbox y coordinates in `image_read`. -/
def minBBoxY (bboxes : List BBox) : Nat := listMin (bboxes.map BBox.y)

/-- The destination rectangle computed by `read_tile` (decon.py):
`x_start = bbox.x - x_offset; x_end = x_start + bbox.w` and likewise for y. -/
def read_tile_dest (bbox : BBox) (xOffset yOffset : Nat) : DestRect :=
  ⟨bbox.x - xOffset, bbox.x - xOffset + bbox.w,
   bbox.y - yOffset, bbox.y - yOffset + bbox.h⟩

/-- `image_read` (decon.py) prepares one `read_tile` task per tile, all with
offsets `(np.min(x_), np.min(y_))`; this is the list of destination
rectangles of the merge loop. -/
def image_read_dests (bboxes : List BBox) : List DestRect :=
  bboxes.map fun b => read_tile_dest b (minBBoxX bboxes) (minBBoxY bboxes)

/-- The destination used by the manual-read loop of `collagen_quant`
(collagen_quant.py, reader="aicspylibczi", reconstruct_mosaic=False):
`x_start = bbox.x; x_end = bbox.x + bbox.w` — absolute coordinates, no
origin subtraction. -/
def cq_tile_dest (bbox : BBox) : DestRect :=
  ⟨bbox.x, bbox.x + bbox.w, bbox.y, bbox.y + bbox.h⟩

theorem listMin_le {l : List Nat} {x : Nat} (hx : x ∈ l) : listMin l ≤ x := by
  have key : ∀ (vs : List Nat) (a : Nat),
      vs.foldl min a ≤ a ∧ ∀ y ∈ vs, vs.foldl min a ≤ y := by
    intro vs
    induction vs with
    | nil => intro a; exact ⟨Nat.le_refl a, by simp⟩
    | cons v vs ih =>
        intro a
        obtain ⟨h1, h2⟩ := ih (min a v)
        refine ⟨Nat.le_trans h1 (Nat.min_le_left _ _), ?_⟩
        intro y hy
        rcases List.mem_cons.mp hy with rfl | hy
        · exact Nat.le_trans h1 (Nat.min_le_right _ _)
        · exact h2 y hy

  cases l with
  | nil => cases hx
  | cons v vs =>
      rcases List.mem_cons.mp hx with rfl | hx
      · exact (key vs x).1
      · exact (key vs v).2 x hx

theorem listMin_mem {l : List Nat} (hl : l ≠ []) : listMin l ∈ l := by
  have key : ∀ (vs : List Nat) (a : Nat),
      vs.foldl min a = a ∨ vs.foldl min a ∈ vs := by
    intro vs
    induction vs with
    | nil => intro a; exact Or.inl rfl
    | cons v vs ih =>
        intro a
        rw [List.foldl_cons]
        rcases ih (min a v) with h | h
        · rcases min_choice a v with hm | hm
          · exact Or.inl (h.trans hm)
          · exact Or.inr (by rw [h, hm]; exact List.mem_cons_self _ _)
        · exact Or.inr (List.mem_cons_of_mem _ h)
  cases l with
  | nil => exact absurd rfl hl
  | cons v vs =>
      rcases key vs v with h | h
      · rw [listMin, h]; exact List.mem_cons_self _ _
      · exact List.mem_cons_of_mem _ h

/-- C3 counterexample: in collagen_quant.py's manual-read path the tile with
bounding box (x=5, y=3, w=2, h=2) — a tile set whose componentwise minimum is
(5, 3) — is written at absolute x=5, not at `bbox.x - origin.x = 0` as the
claim requires of every fetched tile. -/
theorem cq_dest_not_translated :
    (cq_tile_dest ⟨5, 3, 2, 2⟩).xStart
      ≠ (5 : Nat) - minBBoxX [⟨5, 3, 2, 2⟩] := by decide

/-- C3 amended: in decon.py's `image_read`/`read_tile` the offsets are the
componentwise minima of the tile bounding boxes and every destination
rectangle is the bounding box translated by `-origin`; in collagen_quant.py's
manual-read path the destination is the absolute bounding box (no
translation). -/
theorem tile_destination_origin (bboxes : List BBox) (hne : bboxes ≠ []) :
    (minBBoxX bboxes ∈ bboxes.map BBox.x
      ∧ ∀ b ∈ bboxes, minBBoxX bboxes ≤ b.x)
    ∧ (minBBoxY bboxes ∈ bboxes.map BBox.y
      ∧ ∀ b ∈ bboxes, minBBoxY bboxes ≤ b.y)
    ∧ (∀ b ∈ bboxes,
        read_tile_dest b (minBBoxX bboxes) (minBBoxY bboxes)
          ∈ image_read_dests bboxes
        ∧ (read_tile_dest b (minBBoxX bboxes) (minBBoxY bboxes)).xStart
            + minBBoxX bboxes = b.x
        ∧ (read_tile_dest b (minBBoxX bboxes) (minBBoxY bboxes)).yStart
            + minBBoxY bboxes = b.y
        ∧ (read_tile_dest b (minBBoxX bboxes) (minBBoxY bboxes)).xEnd
            = (read_tile_dest b (minBBoxX bboxes) (minBBoxY bboxes)).xStart
              + b.w
        ∧ (read_tile_dest b (minBBoxX bboxes) (minBBoxY bboxes)).yEnd
            = (read_tile_dest b (minBBoxX bboxes) (minBBoxY bboxes)).yStart
              + b.h)
    ∧ (∀ b : BBox, cq_tile_dest b = ⟨b.x, b.x + b.w, b.y, b.y + b.h⟩) := by
  refine ⟨⟨?_, ?_⟩, ⟨?_, ?_⟩, ?_, fun b => rfl⟩
  · exact listMin_mem (by simpa using hne)
  · intro b hb
    exact listMin_le (List.mem_map_of_mem BBox.x hb)
  · exact listMin_mem (by simpa using hne)
  · intro b hb
    exact listMin_le (List.mem_map_of_mem BBox.y hb)
  · intro b hb
    have hx : minBBoxX bboxes ≤ b.x := listMin_le (List.mem_map_of_mem BBox.x hb)
    have hy : minBBoxY bboxes ≤ b.y := listMin_le (List.mem_map_of_mem BBox.y hb)
    refine ⟨List.mem_map_of_mem _ hb, ?_, ?_, rfl, rfl⟩
    · simp only [read_tile_dest]; omega
    · simp only [read_tile_dest]; omega

theorem tile_destination_origin_witness :
    minBBoxX [(⟨5, 3, 2, 2⟩ : BBox), ⟨2, 7, 1, 1⟩]
      ∈ [(⟨5, 3, 2, 2⟩ : BBox), ⟨2, 7, 1, 1⟩].map BBox.x :=
  (tile_destination_origin [⟨5, 3, 2, 2⟩, ⟨2, 7, 1, 1⟩] (by decide)).1.1

/-! ### The manual mosaic-read loop of collagen_quant.py -/

/-- The canvas initialisation of collagen_quant's manual-read path:
`np.zeros((w, h, 3), dtype=np.uint16)` immediately followed by the stray
`image_np[0:10, 0:5, :] = 1`. -/
def cqInit (X Y : Nat) : Canvas Nat :=
  fun x y => if x < min 10 X ∧ y < min 5 Y then 1 else 0

/-- One tile write of the manual-read loop:
`image_np[x_start:x_end, y_start:y_end, :] = ...tile...`, which raises (and is
skipped by the `except: continue`) when the tile does not broadcast into the
clipped slice, i.e. when the bbox does not fit inside the canvas. -/
def cqWriteTile (canvas : Canvas Nat) (b : BBox) (tile : Canvas Nat)
    (X Y : Nat) : Canvas Nat :=
  if b.x + b.w ≤ X ∧ b.y + b.h ≤ Y then
    fun x y =>
      if b.x ≤ x ∧ x < b.x + b.w ∧ b.y ≤ y ∧ y < b.y + b.h then
        tile (x - b.x) (y - b.y)
      else canvas x y
  else canvas

/-- The manual mosaic-read loop of `collagen_quant`
(reader="aicspylibczi", reconstruct_mosaic=False): each tile's
`read_mosaic` either yields a buffer or raises (`except: continue`, modelled
by `Option`); failed reads are skipped, successful ones are written at
absolute bbox coordinates. -/
def cqAssemble (X Y : Nat) (tiles : List (BBox × Option (Canvas Nat))) :
    Canvas Nat :=
  tiles.foldl
    (fun canvas tr =>
      match tr.2 with
      | none => canvas
      | some tile => cqWriteTile canvas tr.1 tile X Y)
    (cqInit X Y)

/-- C4: evaluating the manual-read loop on a 20×20 mosaic with a failing tile
at bbox (0,0,10,5) and a succeeding tile at bbox (12,12,2,2): the loop does
return a canvas, the failing tile is skipped and the other tile is written,
but the failed tile's region holds 1 — the stray debug initialisation
`image_np[0:10,0:5,:] = 1` — not the documented zero fill. -/
theorem failed_tile_region_not_zero :
    cqAssemble 20 20
        [(⟨0, 0, 10, 5⟩, none), (⟨12, 12, 2, 2⟩, some fun _ _ => 7)] 0 0 = 1
    ∧ cqAssemble 20 20
        [(⟨0, 0, 10, 5⟩, none), (⟨12, 12, 2, 2⟩, some fun _ _ => 7)] 12 12 = 7
    ∧ cqAssemble 20 20
        [(⟨0, 0, 10, 5⟩, none), (⟨12, 12, 2, 2⟩, some fun _ _ => 7)] 11 6 = 0
    := by
  refine ⟨rfl, rfl, rfl⟩

/-! ### The sliding-window iterator of seg.py -/

/-- The loop starts `range(0, size - tile_size + 1, step)` of
`iterate_over_regions`: empty when `tile_size > size` (the Python upper bound
`size - tile_size + 1` is then ≤ 0). -/
def iterStarts (size t step : Nat) : List Nat :=
  if t ≤ size then List.range' 0 ((size - t) / step + 1) step else []

/-- A window descriptor `(x, y, x_max, y_max)` as yielded by
`iterate_over_regions`. -/
structure Window where
  x : Nat
  y : Nat
  xMax : Nat
  yMax : Nat
deriving DecidableEq, Repr

/-- Pixel membership in a window (x is the column, y the row). -/
def Window.containsPx (w : Window) (px py : Nat) : Prop :=
  w.x ≤ px ∧ px < w.xMax ∧ w.y ≤ py ∧ py < w.yMax

instance (w : Window) (px py : Nat) : Decidable (w.containsPx px py) := by
  unfold Window.containsPx; infer_instance

/-- The window descriptors yielded by `iterate_over_regions` over an H×W
array with the given tile size and overlap: outer loop over rows (`y`), inner
over columns (`x`), `x_max = min(x+tile_size, image_width)` and likewise for
`y_max`. -/
def windowsOf (H W t o : Nat) : List Window :=
  (iterStarts H t (t - o)).flatMap fun y =>
    (iterStarts W t (t - o)).map fun x =>
      ⟨x, y, min (x + t) W, min (y + t) H⟩

theorem mem_iterStarts {size t step : Nat} {v : Nat} :
    v ∈ iterStarts size t step
      ↔ t ≤ size ∧ ∃ i, i ≤ (size - t) / step ∧ v = step * i := by
  unfold iterStarts
  split
  · rename_i hts
    simp only [List.mem_range', Nat.zero_add]
    constructor
    · rintro ⟨i, hi, rfl⟩
      exact ⟨hts, i, by omega, rfl⟩
    · rintro ⟨_, i, hi, rfl⟩
      exact ⟨i, by omega, rfl⟩
  · rename_i hts
    simp only [List.not_mem_nil, false_iff, not_and]
    intro h
    exact absurd h hts

/-- Start characterisation for the `overlap = 0` case: the starts are the
multiples `t*i` with `t*(i+1) ≤ size`. -/
theorem mem_iterStarts_step_self {size t : Nat} (ht : 0 < t) {v : Nat} :
    v ∈ iterStarts size t t ↔ ∃ i, t * i + t ≤ size ∧ v = t * i := by
  rw [mem_iterStarts]
  constructor
  · rintro ⟨hts, i, hi, rfl⟩
    refine ⟨i, ?_, rfl⟩
    have : i * t ≤ (size - t) / t * t := Nat.mul_le_mul_right t hi
    have hdt : (size - t) / t * t ≤ size - t := Nat.div_mul_le_self _ _
    have := Nat.mul_comm i t
    omega
  · rintro ⟨i, hi, rfl⟩
    have hts : t ≤ size := by
      have : 0 ≤ t * i := Nat.zero_le _
      omega
    refine ⟨hts, i, ?_, rfl⟩
    have : i ≤ (size - t) / t := by
      apply Nat.le_div_iff_mul_le ht |>.mpr
      have := Nat.mul_comm i t
      omega
    exact this

/-- C5 counterexample: over a 5×5 array at tile_size=2, overlap=0, the pixel
(4,4) lies in no yielded window: the iterator's loop bound
`image_height - tile_size + 1` drops the trailing partial row/column instead
of clipping it, so the windows do not cover the whole array. -/
theorem window_coverage_gap :
    ¬ ∃ w ∈ windowsOf 5 5 2 0, w.containsPx 4 4 := by decide

/-- C5 amended: with overlap=0 the union of the yielded windows over an H×W
array is exactly `[0, t·⌊W/t⌋) × [0, t·⌊H/t⌋)`: the trailing `W mod t`
columns and `H mod t` rows (the partial last row/column) are never covered,
so the union equals the whole array iff t divides both dimensions. -/
theorem window_coverage_overlap_zero (H W t px py : Nat) (ht : 0 < t) :
    (∃ w ∈ windowsOf H W t 0, w.containsPx px py)
      ↔ (px < t * (W / t) ∧ py < t * (H / t)) := by
  have hcov : ∀ n v : Nat, (∃ i, t * i + t ≤ n ∧ t * i ≤ v ∧ v < t * i + t)
      ↔ v < t * (n / t) := by
    intro n v
    constructor
    · rintro ⟨i, hin, hiv1, hiv2⟩
      have h1 : i + 1 ≤ n / t := by
        apply Nat.le_div_iff_mul_le ht |>.mpr
        have := Nat.mul_comm (i + 1) t
        have := Nat.mul_add t i 1
        omega
      have h2 : t * (i + 1) ≤ t * (n / t) := Nat.mul_le_mul_left t h1
      have := Nat.mul_add t i 1
      omega
    · intro hv
      refine ⟨v / t, ?_, ?_, ?_⟩
      · have h1 : v / t < n / t := by
          by_contra hcon
          have h2 : n / t ≤ v / t := by omega
          have h3 : t * (n / t) ≤ t * (v / t) := Nat.mul_le_mul_left t h2
          have h4 : t * (v / t) ≤ v := Nat.mul_div_le v t
          omega
        have h5 : v / t + 1 ≤ n / t := by omega
        have h6 : t * (v / t + 1) ≤ t * (n / t) := Nat.mul_le_mul_left t h5
        have h7 : t * (n / t) ≤ n := Nat.mul_div_le n t
        have := Nat.mul_add t (v / t) 1
        omega
      · exact Nat.mul_div_le v t
      · have := Nat.div_add_mod v t
        have := Nat.mod_lt v ht
        omega
  constructor
  · rintro ⟨w, hw, hpx⟩
    simp only [windowsOf, List.mem_flatMap, List.mem_map, Nat.sub_zero] at hw
    obtain ⟨y, hy, x, hx, rfl⟩ := hw
    obtain ⟨iy, hiy, rfl⟩ := (mem_iterStarts_step_self ht).mp hy
    obtain ⟨ix, hix, rfl⟩ := (mem_iterStarts_step_self ht).mp hx
    obtain ⟨h1, h2, h3, h4⟩ :
        t * ix ≤ px ∧ px < min (t * ix + t) W
          ∧ t * iy ≤ py ∧ py < min (t * iy + t) H := hpx
    rw [Nat.lt_min] at h2 h4
    constructor
    · exact (hcov W px).mp ⟨ix, hix, h1, by omega⟩
    · exact (hcov H py).mp ⟨iy, hiy, h3, by omega⟩
  · rintro ⟨hpx, hpy⟩
    obtain ⟨ix, hix, h1, h2⟩ := (hcov W px).mpr hpx
    obtain ⟨iy, hiy, h3, h4⟩ := (hcov H py).mpr hpy
    refine ⟨⟨t * ix, t * iy, min (t * ix + t) W, min (t * iy + t) H⟩, ?_, ?_⟩
    · simp only [windowsOf, List.mem_flatMap, List.mem_map, Nat.sub_zero]
      exact ⟨t * iy, (mem_iterStarts_step_self ht).mpr ⟨iy, hiy, rfl⟩,
        t * ix, (mem_iterStarts_step_self ht).mpr ⟨ix, hix, rfl⟩, rfl⟩
    · have hW := Nat.mul_div_le W t
      have hH := Nat.mul_div_le H t
      show t * ix ≤ px ∧ px < min (t * ix + t) W
          ∧ t * iy ≤ py ∧ py < min (t * iy + t) H
      rw [Nat.lt_min, Nat.lt_min]
      exact ⟨h1, ⟨by omega, by omega⟩, h3, ⟨by omega, by omega⟩⟩

theorem window_coverage_overlap_zero_witness :
    ∃ w ∈ windowsOf 5 5 2 0, w.containsPx 3 3 :=
  (window_coverage_overlap_zero 5 5 2 3 3 (by decide)).mpr (by decide)

theorem range'_step_eq_map (n step : Nat) :
    List.range' 0 n step = (List.range n).map (step * ·) := by
  apply List.ext_getElem
  · simp
  · intro i h1 h2
    simp [List.getElem_range']

/-- C8: every yielded window is clipped within the array bounds; the window
list is the row-major enumeration (outer rows, inner columns) over start
sequences that advance by `tile_size - overlap` (`i`-th start is
`(t-o)·i`); over a 50×50 array with tile_size=20, overlap=5 the starts along
each axis are exactly {0, 15, 30} and the last window is clipped to end at
coordinate 50. -/
theorem windows_row_major (H W t o : Nat) (_ho : o < t) :
    (∀ w ∈ windowsOf H W t o, w.xMax ≤ W ∧ w.yMax ≤ H)
    ∧ (windowsOf H W t o
        = (List.range (if t ≤ H then (H - t) / (t - o) + 1 else 0)).flatMap
            fun iy => (List.range (if t ≤ W then (W - t) / (t - o) + 1 else 0)).map
              fun ix => ⟨(t - o) * ix, (t - o) * iy,
                min ((t - o) * ix + t) W, min ((t - o) * iy + t) H⟩)
    ∧ iterStarts 50 20 15 = [0, 15, 30]
    ∧ (windowsOf 50 50 20 5).getLast? = some ⟨30, 30, 50, 50⟩ := by
  refine ⟨?_, ?_, by decide, by decide⟩
  · intro w hw
    simp only [windowsOf, List.mem_flatMap, List.mem_map] at hw
    obtain ⟨y, _, x, _, rfl⟩ := hw
    exact ⟨Nat.min_le_right _ _, Nat.min_le_right _ _⟩
  · unfold windowsOf iterStarts
    by_cases hH : t ≤ H <;> by_cases hW : t ≤ W <;>
      simp only [hH, hW, if_true, if_false, range'_step_eq_map,
        List.flatMap_map, List.map_map] <;> rfl

theorem windows_row_major_witness : iterStarts 50 20 15 = [0, 15, 30] :=
  (windows_row_major 50 50 20 5 (by decide)).2.2.1

/-! ### The tiled region-statistics pass of seg.py `main` -/

/-- `np.sum(tile)` over a window's sub-array (row y, column x). -/
def windowSum (img : Canvas Nat) (w : Window) : Nat :=
  ((List.range (w.yMax - w.y)).flatMap fun dy =>
    (List.range (w.xMax - w.x)).map fun dx =>
      img (w.y + dy) (w.x + dx)).sum

/-- One emitted row of the tiled statistics CSV.  The CSV also stores the
percentage `np.sum(image_tile)/np.sum(mask_tile)*100`, a float whose exact
value is the fraction `collagenSum * 100 / tissueSum`; the row keeps the two
operands of that division. -/
structure StatRow where
  x0 : Nat
  y0 : Nat
  x1 : Nat
  y1 : Nat
  collagenSum : Nat
  tissueSum : Nat
deriving DecidableEq, Repr

/-- The tiled statistics loop of seg.py `main` (with a mask): for each window
of `iterate_over_regions`, `if np.sum(mask_tile) == 0: continue`, otherwise
append a row with the window bounds, `np.sum(image_tile)` and
`np.sum(mask_tile)` (the numerator and divisor of the percentage column). -/
def tiledStats (collagen mask : Canvas Nat) (H W t pad : Nat) : List StatRow :=
  (windowsOf H W t pad).filterMap fun w =>
    if windowSum mask w = 0 then none
    else some ⟨w.x, w.y, w.xMax, w.yMax, windowSum collagen w,
      windowSum mask w⟩

/-- C9: every window whose mask sub-array sums to zero is skipped and
contributes no row, so every emitted row has a strictly positive tissue sum
and the divisor of the collagen-vs-tissue percentage
(`np.sum(mask_tile)` = `tissueSum`) is nonzero. -/
theorem tiledStats_tissue_pos (collagen mask : Canvas Nat) (H W t pad : Nat)
    (row : StatRow) (hrow : row ∈ tiledStats collagen mask H W t pad) :
    0 < row.tissueSum ∧ (row.tissueSum : ℚ) ≠ 0 := by
  simp only [tiledStats, List.mem_filterMap] at hrow
  obtain ⟨w, _, hsome⟩ := hrow
  by_cases h : windowSum mask w = 0
  · rw [if_pos h] at hsome
    cases hsome
  · rw [if_neg h] at hsome
    cases hsome
    constructor
    · simpa using Nat.pos_of_ne_zero h
    · simpa using h

theorem tiledStats_tissue_pos_witness :
    0 < (⟨0, 0, 1, 1, 1, 1⟩ : StatRow).tissueSum :=
  (tiledStats_tissue_pos (fun _ _ => 1) (fun _ _ => 1) 2 2 1 0
    ⟨0, 0, 1, 1, 1, 1⟩ (by decide)).1

/-! ### `iterate_over_regions` as called: the mask argument -/

/-- An image together with its shape, as seen by `iterate_over_regions`. -/
structure SizedImage where
  height : Nat
  width : Nat
  pix : Canvas Nat

/-- One yielded item of `iterate_over_regions`: window bounds, image tile,
and — only on the `mask is not None` branch — the mask tile. -/
structure RegionItem where
  x : Nat
  y : Nat
  xMax : Nat
  yMax : Nat
  imageTile : Canvas Nat
  maskTile : Option (Canvas Nat)

/-- The yield step of `iterate_over_regions`: one item per window, with the
per-window `if mask is not None` check deciding whether the item carries a
mask tile (the `none` branch is the documented optional-mask yield). -/
def yieldItems (image : SizedImage) (mask : Option SizedImage)
    (t o : Nat) : List RegionItem :=
  (windowsOf image.height image.width t o).map fun w =>
    { x := w.x, y := w.y, xMax := w.xMax, yMax := w.yMax
      imageTile := fun dy dx => image.pix (w.y + dy) (w.x + dx)
      maskTile :=
        match mask with
        | some m => some fun dy dx => m.pix (w.y + dy) (w.x + dx)
        | none => none }

/-- `iterate_over_regions(image, mask, tile_size, overlap_size)` of seg.py:
the first executed line is `assert image.shape == mask.shape`, whose
evaluation of `mask.shape` raises an `AttributeError` when `mask is None`
(before any `mask is not None` check); when the shapes match, the windows are
yielded by `yieldItems`. -/
def iterate_over_regions (image : SizedImage) (mask : Option SizedImage)
    (t o : Nat) : Except String (List RegionItem) :=
  match mask with
  | none => Except.error "AttributeError: NoneType has no attribute shape"
  | some m =>
      if (image.height, image.width) = (m.height, m.width) then
        Except.ok (yieldItems image (some m) t o)
      else Except.error "AssertionError: image and mask shape inconsistent"

/-- C10: whenever `iterate_over_regions` succeeds, the mask was a real array
of the image's shape and every yielded item carries a mask tile; calling it
with `mask = None` always fails at the shape-assertion line with the
attribute error, so the no-mask yield branch is unreachable. -/
theorem iterate_requires_mask (image : SizedImage) (mask : Option SizedImage)
    (t o : Nat) (items : List RegionItem)
    (hok : iterate_over_regions image mask t o = Except.ok items) :
    (∃ m, mask = some m ∧ m.height = image.height ∧ m.width = image.width)
    ∧ (∀ it ∈ items, it.maskTile.isSome)
    ∧ iterate_over_regions image none t o
        = Except.error "AttributeError: NoneType has no attribute shape" := by
  cases mask with
  | none => exact Except.noConfusion hok
  | some m =>
      simp only [iterate_over_regions] at hok
      by_cases hs : (image.height, image.width) = (m.height, m.width)
      · rw [if_pos hs] at hok
        have hitems : items = yieldItems image (some m) t o :=
          (Except.ok.inj hok).symm
        subst hitems
        have h1 : image.height = m.height := congrArg Prod.fst hs
        have h2 : image.width = m.width := congrArg Prod.snd hs
        refine ⟨⟨m, rfl, h1.symm, h2.symm⟩, ?_, rfl⟩
        intro it hit
        simp only [yieldItems, List.mem_map] at hit
        obtain ⟨w, _, rfl⟩ := hit
        rfl
      · rw [if_neg hs] at hok
        exact Except.noConfusion hok

theorem iterate_requires_mask_witness :
    iterate_over_regions ⟨2, 2, fun _ _ => 0⟩ none 2 0
      = Except.error "AttributeError: NoneType has no attribute shape" :=
  (iterate_requires_mask ⟨2, 2, fun _ _ => 0⟩
    (some ⟨2, 2, fun _ _ => 1⟩) 2 0 _ rfl).2.2

/-! ### C6: what the operations return -/

/-- C6 counterexample: two parallel transform runs that differ only in which
unit failed (no failures vs. the single region failing) return identical
values, so the value returned by `stain_vector_separation_large` cannot carry
the list of failed unit identifiers — the failures are only printed by
`callback_err`, and the function returns the bare canvas. -/
theorem result_carries_no_failure_list :
    parTransformWithFailures (fun _ _ => (0 : Nat)) (fun c => c) 1 1 1 1
        (fun _ => false) 0
      = parTransformWithFailures (fun _ _ => (0 : Nat)) (fun c => c) 1 1 1 1
          (fun r => r == ⟨0, 1, 0, 1⟩) 0
    ∧ (fun _ : Region => false) (⟨0, 1, 0, 1⟩ : Region)
        ≠ (fun r : Region => r == ⟨0, 1, 0, 1⟩) ⟨0, 1, 0, 1⟩
    ∧ (⟨0, 1, 0, 1⟩ : Region) ∈ regionList 1 1 1 := by
  refine ⟨?_, by decide, by decide⟩
  funext i j
  show (if (⟨0, 1, 0, 1⟩ : Region).contains i j then (0 : Nat) else 0) = 0
  split <;> rfl

/-- A fold over regions in which failed tasks are skipped leaves every pixel
of a failed region at the accumulator's value, provided the other regions are
disjoint from it. -/
theorem foldl_skip_keeps_failed {α : Type} (F : Region → Canvas α)
    (fails : Region → Bool) (r : Region) (i j : Nat)
    (hij : r.contains i j) (hfail : fails r = true) :
    ∀ (l : List Region), (∀ r' ∈ l, r' ≠ r → RegionDisjoint r' r) →
      ∀ acc : Canvas α,
        (l.foldl (fun acc2 r' =>
          if fails r' then acc2 else writeRegion acc2 r' (F r')) acc) i j
          = acc i j := by
  intro l
  induction l with
  | nil => intro _ acc; rfl
  | cons r' l ih =>
      intro hdisj acc
      rw [List.foldl_cons,
        ih (fun x hx hne => hdisj x (List.mem_cons_of_mem _ hx) hne)]
      by_cases hf : fails r'
      · rw [if_pos hf]
      · rw [if_neg hf]
        have hne : r' ≠ r := by
          intro e
          rw [e, hfail] at hf
          exact hf rfl
        have hnc : ¬ r'.contains i j := fun hc =>
          (hdisj r' (List.mem_cons_self _ _) hne).not_both i j ⟨hc, hij⟩
        simp [writeRegion, hnc]

/-- C6 amended: `stain_vector_separation_large`'s parallel path returns only
the output canvas — a failed unit is not surfaced in the returned value, its
region simply keeps the zero-fill value of the output array (failures are
only printed). -/
theorem failed_region_stays_zero {α : Type} (img : Canvas α)
    (f : Canvas α → Canvas α) (H W t bs : Nat) (fails : Region → Bool)
    (z : α) (ht : 0 < t) (hbs : 0 < bs) (r : Region)
    (hr : r ∈ regionList H W t) (hfail : fails r = true)
    (i j : Nat) (hij : r.contains i j) :
    parTransformWithFailures img f H W t bs fails z i j = z := by
  unfold parTransformWithFailures
  rw [foldl_nested_eq_foldl_flatMap, flatMap_chunkOf _ hbs]
  exact foldl_skip_keeps_failed (fun r' => f (extract img r')) fails r i j hij
    hfail (regionList H W t)
    (fun r' hr' hne => regionList_pairwise_disjoint ht r' hr' r hr hne) _

theorem failed_region_stays_zero_witness :
    parTransformWithFailures (fun i j => i * 10 + j)
        (fun c => fun i j => c i j + 1) 2 2 1 2
        (fun r => r == ⟨0, 1, 0, 1⟩) 99 0 0 = 99 :=
  failed_region_stays_zero (fun i j => i * 10 + j)
    (fun c => fun i j => c i j + 1) 2 2 1 2 (fun r => r == ⟨0, 1, 0, 1⟩) 99
    (by decide) (by decide) ⟨0, 1, 0, 1⟩ (by decide) (by decide) 0 0
    (by decide)

end HistCollagen
